import Mathlib

/-!
# A verified model of the RNR1/Blockchain ledger core

Shallow embedding of `blockchain.py` and `utility/hash_util.py`.  The SHA-256
digest used by `hash_string_256` comes from Python's `hashlib` standard library
and is treated as an opaque collaborator: every definition that hashes is
parameterized by a digest function `H : String → String`.  The collaborator
modules `block.py`, `transaction.py`, `utility/verification.py` and `wallet.py`
are not part of the sources; definitions taken from them are modelled from the
specification and say so in their doc comments.  Peer network I/O is modelled
by response/fetch functions passed as arguments; persistence (`save_data`) has
no observable effect on the in-memory state and is not modelled.
-/

set_option autoImplicit false

namespace RNR

/-- Modelled from the spec (§3): a `Transaction` value from the missing
`transaction.py` — sender, recipient, opaque signature, non-negative amount. -/
structure Transaction where
  sender : String
  recipient : String
  signature : String
  amount : Nat
deriving DecidableEq, Repr

/-- Modelled from the spec (§3): a `Block` value from the missing `block.py` —
index, previous hash, ordered transactions, proof, numeric timestamp. -/
structure Block where
  index : Nat
  previous_hash : String
  transactions : List Transaction
  proof : Nat
  timestamp : Nat
deriving DecidableEq, Repr

/-- Modelled from the spec (§4.1): the canonical key-sorted encoding of a
transaction (`Transaction.to_ordered_dict` lives in the missing
`transaction.py`); keys appear in sorted order `amount, recipient, sender,
signature`. -/
def Transaction.encode (t : Transaction) : String :=
  "\x7b\"amount\": " ++ toString t.amount ++
    ", \"recipient\": \"" ++ t.recipient ++
    "\", \"sender\": \"" ++ t.sender ++
    "\", \"signature\": \"" ++ t.signature ++ "\"\x7d"

/-- The canonical key-sorted JSON encoding of a block built by `hash_block`
(`json.dumps(hashable_block, sort_keys=True)` in `utility/hash_util.py`), with
the block's transactions reduced to their ordered-dict encodings.  Sorted key
order is `index, previous_hash, proof, timestamp, transactions`. -/
def Block.encode (b : Block) : String :=
  "\x7b\"index\": " ++ toString b.index ++
    ", \"previous_hash\": \"" ++ b.previous_hash ++
    "\", \"proof\": " ++ toString b.proof ++
    ", \"timestamp\": " ++ toString b.timestamp ++
    ", \"transactions\": [" ++
    String.intercalate ", " (b.transactions.map Transaction.encode) ++ "]\x7d"

/-- `hash_block` from `utility/hash_util.py`: hash the canonical encoding of
the block with the digest function `H` (standing for `hash_string_256`, i.e.
SHA-256 hex digest). -/
def hash_block (H : String → String) (block : Block) : String :=
  H (Block.encode block)

/-- Modelled from the spec (§4.2, missing `utility/verification.py`):
`valid_proof` computes a guess digest over the canonical encoding of
(transactions, previous hash, proof) and succeeds iff the digest's first two
characters are both `'0'`. -/
def valid_proof (H : String → String) (transactions : List Transaction)
    (last_hash : String) (proof : Nat) : Bool :=
  let guess := "[" ++ String.intercalate ", " (transactions.map Transaction.encode) ++ "]"
    ++ last_hash ++ toString proof
  (H guess).take 2 == "00"

/-- Modelled from the spec (§4.2, missing `utility/verification.py`):
`Verification.verify_transaction` — a transaction is valid iff it is a reward
transaction (sender `"MINING"`) or the sender's reported balance covers the
amount. -/
def verify_transaction (tx : Transaction) (get_balance : String → Int) : Bool :=
  tx.sender == "MINING" || (tx.amount : Int) ≤ get_balance tx.sender

/-- Modelled from the spec (§4.2, missing `utility/verification.py`): the tail
of `Verification.verify_chain` — walk the chain from the block after genesis,
checking the previous-hash link and `valid_proof` over all but the last
transaction, short-circuiting on the first violation. -/
def verify_chain_from (H : String → String) : Block → List Block → Bool
  | _, [] => true
  | prev, b :: rest =>
    if b.previous_hash != hash_block H prev then false
    else if !valid_proof H b.transactions.dropLast b.previous_hash b.proof then false
    else verify_chain_from H b rest

/-- Modelled from the spec (§4.2, missing `utility/verification.py`):
`Verification.verify_chain` — index 0 (genesis) is skipped. -/
def verify_chain (H : String → String) : List Block → Bool
  | [] => true
  | b :: rest => verify_chain_from H b rest

/-- The ledger state owned by the `Blockchain` class: chain, open transaction
pool, local public key (`None` modelled as `none`), peer set (modelled as a
duplicate-free list), node id and the `resolve_conflicts` flag. -/
structure Blockchain where
  chain : List Block
  open_transactions : List Transaction
  public_key : Option String
  peer_nodes : List String
  node_id : String
  resolve_conflicts : Bool
deriving DecidableEq, Repr

/-- The module constant `MINING_REWARD = 10` of `blockchain.py`. -/
def MINING_REWARD : Nat := 10

/-- The genesis block built in `Blockchain.__init__`: `Block(0, '', [], 100, 0)`. -/
def genesis_block : Block :=
  { index := 0, previous_hash := "", transactions := [], proof := 100, timestamp := 0 }

/-- `Blockchain.__init__` followed by `load_data`: the state starts from the
genesis chain, empty pool and empty peer set; when the persisted snapshot file
is readable (`some` snapshot) its chain, open transactions and peer nodes are
installed, and a missing or unreadable file (`none`) leaves the genesis
initialization in place (the `IOError` branch of `load_data`). -/
def Blockchain.init (public_key : Option String) (node_id : String)
    (snapshot : Option (List Block × List Transaction × List String)) : Blockchain :=
  let bc : Blockchain :=
    { chain := [genesis_block], open_transactions := [], public_key := public_key,
      peer_nodes := [], node_id := node_id, resolve_conflicts := false }
  match snapshot with
  | none => bc
  | some s => { bc with chain := s.1, open_transactions := s.2.1, peer_nodes := s.2.2 }

/-- The body of `Blockchain.get_balance` for a given participant: amounts are
gathered per block as lists (`tx_sender` / `tx_recipient`), the open pool's
sends are appended, and the Python `reduce` with its
`tx_sum + sum(amount) if len(amount) else tx_sum + 0` step adds them up;
the result is received minus sent. -/
def get_balance_core (bc : Blockchain) (participant : String) : Int :=
  let tx_sender := bc.chain.map (fun block =>
    (block.transactions.filter (fun tx => tx.sender == participant)).map (fun tx => tx.amount))
  let open_tx_sender :=
    (bc.open_transactions.filter (fun tx => tx.sender == participant)).map (fun tx => tx.amount)
  let tx_sender := tx_sender ++ [open_tx_sender]
  let amount_sent := tx_sender.foldl
    (fun (tx_sum : Nat) amount => if amount.length ≠ 0 then tx_sum + amount.sum else tx_sum + 0) 0
  let tx_recipient := bc.chain.map (fun block =>
    (block.transactions.filter (fun tx => tx.recipient == participant)).map (fun tx => tx.amount))
  let amount_received := tx_recipient.foldl
    (fun (tx_sum : Nat) amount => if amount.length ≠ 0 then tx_sum + amount.sum else tx_sum + 0) 0
  (amount_received : Int) - (amount_sent : Int)

/-- `Blockchain.get_balance`: with no explicit sender it falls back to the
local public key and returns `None` when that is unset. -/
def get_balance (bc : Blockchain) (sender : Option String) : Option Int :=
  match sender with
  | none =>
    match bc.public_key with
    | none => none
    | some pk => some (get_balance_core bc pk)
  | some s => some (get_balance_core bc s)

/-- Outcome of an HTTP interaction with one peer: accepted (2xx), explicitly
rejected (status 400/500), conflict (status 409), or `requests` raising
`ConnectionError`. -/
inductive PeerResp where
  | ok
  | rejected
  | conflict
  | unreachable
deriving DecidableEq, Repr

/-- The peer relay loop of `add_transaction`: POST to each peer in turn;
an explicit rejection (400/500) returns `False` immediately, an unreachable
peer (or any other status, 409 included — `add_transaction` only tests for
400/500) is skipped. -/
def relay_tx_loop (net : String → PeerResp) : List String → Bool
  | [] => true
  | node :: rest =>
    match net node with
    | PeerResp.rejected => false
    | _ => relay_tx_loop net rest

/-- `Blockchain.add_transaction`: build the transaction, verify it against the
balance of the current state; if valid, append it to the open pool and — when
the call is local (`is_receiving = false`) — relay it to every peer, returning
`false` if some peer explicitly rejects (the appended transaction is NOT
rolled back).  If verification fails, return `false` with the state unchanged.
Returns the Python return value paired with the post-call state. -/
def add_transaction (bc : Blockchain) (recipient sender signature : String)
    (amount : Nat) (is_receiving : Bool) (net : String → PeerResp) :
    Bool × Blockchain :=
  let transaction : Transaction :=
    { sender := sender, recipient := recipient, signature := signature, amount := amount }
  if verify_transaction transaction (fun s => get_balance_core bc s) then
    let bc1 := { bc with open_transactions := bc.open_transactions ++ [transaction] }
    if !is_receiving then
      if relay_tx_loop net bc1.peer_nodes then (true, bc1) else (false, bc1)
    else (true, bc1)
  else (false, bc)

/-- The `while not valid_proof(...)` search of `Blockchain.proof_of_work`,
starting at a given guess.  The source increments the guess without bound, so
the search is given fuel; `none` models a search that has not terminated
within the fuel. -/
def pow_loop (H : String → String) (txs : List Transaction) (last_hash : String) :
    Nat → Nat → Option Nat
  | 0, _ => none
  | fuel + 1, proof =>
    if valid_proof H txs last_hash proof then some proof
    else pow_loop H txs last_hash fuel (proof + 1)

/-- `Blockchain.proof_of_work`: search from guess 0 over the open transactions
and the hash of the tail block. -/
def proof_of_work (bc : Blockchain) (H : String → String) (fuel : Nat) : Option Nat :=
  match bc.chain.getLast? with
  | none => none
  | some last_block => pow_loop H bc.open_transactions (hash_block H last_block) fuel 0

/-- The peer relay loop at the end of `mine_block`: POST the block to each
peer; a 400/500 response returns `None` (the freshly appended block stays!); a
409 response sets `resolve_conflicts` and continues; unreachable peers are
skipped. -/
def relay_block_loop (net : String → PeerResp) (block : Block) :
    List String → Blockchain → Option Block × Blockchain
  | [], bc => (some block, bc)
  | node :: rest, bc =>
    match net node with
    | PeerResp.rejected => (none, bc)
    | PeerResp.conflict => relay_block_loop net block rest { bc with resolve_conflicts := true }
    | _ => relay_block_loop net block rest bc

/-- `Blockchain.mine_block`.  `sigok` stands for `Wallet.verify_transaction`
(an opaque signature check from the missing `wallet.py`, per spec §4.4 an
external collaborator), `timestamp` for `time()` (the default argument of the
`Block` constructor), `fuel` bounds the proof-of-work loop and `net` gives
each peer's response.  Source order: bail out with `None` when the public key
is unset; hash the tail block; run proof-of-work; verify every pending
transaction's signature, bailing out with `None` (state untouched) on
failure; append the reward transaction; append the block, clear the pool, and
relay.  A `getLast? = none` chain (impossible: Python would raise on
`chain[-1]`) and an exhausted fuel both yield `None` with the state
untouched. -/
def mine_block (bc : Blockchain) (sigok : Transaction → Bool) (H : String → String)
    (fuel : Nat) (timestamp : Nat) (net : String → PeerResp) :
    Option Block × Blockchain :=
  match bc.public_key with
  | none => (none, bc)
  | some pk =>
    match bc.chain.getLast? with
    | none => (none, bc)
    | some last_block =>
      let hashed_block := hash_block H last_block
      match pow_loop H bc.open_transactions hashed_block fuel 0 with
      | none => (none, bc)
      | some proof =>
        if bc.open_transactions.all (fun tx => sigok tx) then
          let reward_transaction : Transaction :=
            { sender := "MINING", recipient := pk, signature := "", amount := MINING_REWARD }
          let copied_transactions := bc.open_transactions ++ [reward_transaction]
          let block : Block :=
            { index := bc.chain.length, previous_hash := hashed_block,
              transactions := copied_transactions, proof := proof, timestamp := timestamp }
          let bc1 := { bc with chain := bc.chain ++ [block], open_transactions := [] }
          relay_block_loop net block bc1.peer_nodes bc1
        else (none, bc)

/-- The structural-match test of `add_block`'s pool-cleanup loop:
`open_tx.sender == incoming_tx['sender'] and open_tx.recipient == ... and
open_tx.amount == ... and open_tx.signature == ...`. -/
def tx_matches (open_tx incoming_tx : Transaction) : Bool :=
  open_tx.sender == incoming_tx.sender && open_tx.recipient == incoming_tx.recipient &&
    open_tx.amount == incoming_tx.amount && open_tx.signature == incoming_tx.signature

/-- `list.remove` (used as `self.__open_transactions.remove(open_tx)`): drop
the first occurrence; the `except ValueError` handler makes removal of an
absent element a no-op, so the already-absent case returns the list
unchanged. -/
def remove_tx (pool : List Transaction) (tx : Transaction) : List Transaction :=
  match pool with
  | [] => []
  | t :: rest => if t == tx then rest else t :: remove_tx rest tx

/-- The inner loop of `add_block`'s pool cleanup: for one incoming
transaction, walk the snapshot `stored` of the pool and remove each
structurally matching entry from the live pool. -/
def purge_inner (stored : List Transaction) (incoming_tx : Transaction)
    (pool : List Transaction) : List Transaction :=
  stored.foldl
    (fun pl open_tx => if tx_matches open_tx incoming_tx then remove_tx pl open_tx else pl)
    pool

/-- The nested pool-cleanup loops of `add_block`: for each transaction of the
incoming block, remove the matching entries found in the snapshot `stored`
from the live pool. -/
def purge_pool (incoming : List Transaction) (stored : List Transaction)
    (pool : List Transaction) : List Transaction :=
  incoming.foldl (fun pl incoming_tx => purge_inner stored incoming_tx pl) pool

/-- `Blockchain.add_block`: reconstruct the incoming block's transactions
(the reconstruction of the wire dicts is the identity here), check
`valid_proof` over all but the last transaction and that the declared
`previous_hash` matches the hash of the local tail; on failure return `False`
with the state untouched, else append the reconstructed block, purge matching
open transactions and return `True`.  A `getLast? = none` chain (impossible:
Python would raise on `self.chain[-1]`) rejects without mutation. -/
def add_block (bc : Blockchain) (H : String → String) (incoming : Block) :
    Bool × Blockchain :=
  match bc.chain.getLast? with
  | none => (false, bc)
  | some tail =>
    let transactions := incoming.transactions
    let proof_is_valid :=
      valid_proof H transactions.dropLast incoming.previous_hash incoming.proof
    let hashes_match := hash_block H tail == incoming.previous_hash
    if !proof_is_valid || !hashes_match then (false, bc)
    else
      let converted_block : Block :=
        { index := incoming.index, previous_hash := incoming.previous_hash,
          transactions := transactions, proof := incoming.proof,
          timestamp := incoming.timestamp }
      let stored_transactions := bc.open_transactions
      (true, { bc with
        chain := bc.chain ++ [converted_block],
        open_transactions :=
          purge_pool incoming.transactions stored_transactions bc.open_transactions })

/-- The peer scan of `Blockchain.resolve`: fetch each peer's chain (`none`
models `ConnectionError`, skipped); a fetched chain becomes the winner iff it
is strictly longer than the current winner and passes `verify_chain`. -/
def resolve_loop (H : String → String) (fetch : String → Option (List Block)) :
    List String → List Block → Bool → List Block × Bool
  | [], winner, replace => (winner, replace)
  | node :: rest, winner, replace =>
    match fetch node with
    | none => resolve_loop H fetch rest winner replace
    | some node_chain =>
      if node_chain.length > winner.length && verify_chain H node_chain then
        resolve_loop H fetch rest node_chain true
      else
        resolve_loop H fetch rest winner replace

/-- `Blockchain.resolve`: scan all peers for a strictly longer valid chain,
then always clear `resolve_conflicts`, install the winner, and clear the open
pool exactly when a replacement occurred; returns whether one occurred. -/
def resolve (bc : Blockchain) (H : String → String)
    (fetch : String → Option (List Block)) : Bool × Blockchain :=
  let wr := resolve_loop H fetch bc.peer_nodes bc.chain false
  let bc1 := { bc with resolve_conflicts := false, chain := wr.1 }
  if wr.2 then (true, { bc1 with open_transactions := [] }) else (false, bc1)

/-- `Blockchain.add_peer_node`: idempotent set insert (`set.add`). -/
def add_peer_node (bc : Blockchain) (node : String) : Blockchain :=
  if node ∈ bc.peer_nodes then bc
  else { bc with peer_nodes := bc.peer_nodes ++ [node] }

/-- `Blockchain.remove_peer_node`: `set.discard`, a no-op when absent. -/
def remove_peer_node (bc : Blockchain) (node : String) : Blockchain :=
  { bc with peer_nodes := bc.peer_nodes.filter (fun n => n != node) }

/-- A concrete digest function for concrete runs: every digest starts with
`"00"`, so every proof guess is accepted at once. -/
def Htest : String → String := fun _ => "00"

/-! ### General lemmas about the operations -/

/-- A successful proof-of-work search did find a valid proof. -/
theorem pow_loop_some (H : String → String) (txs : List Transaction) (last_hash : String) :
    ∀ (fuel start p : Nat), pow_loop H txs last_hash fuel start = some p →
      valid_proof H txs last_hash p = true := by
  intro fuel
  induction fuel with
  | zero => intro start p h; simp [pow_loop] at h
  | succ n ih =>
    intro start p h
    rw [pow_loop] at h
    by_cases hv : valid_proof H txs last_hash start = true
    · simp [hv] at h; exact h ▸ hv
    · simp [hv] at h; exact ih (start + 1) p h

/-- The block relay loop never changes the chain, the pool, the public key or
the peer set, and returns either the relayed block or `none`. -/
theorem relay_block_loop_frame (net : String → PeerResp) (block : Block) :
    ∀ (ps : List String) (st : Blockchain) (r : Option Block) (st' : Blockchain),
      relay_block_loop net block ps st = (r, st') →
      st'.chain = st.chain ∧ st'.open_transactions = st.open_transactions ∧
      st'.public_key = st.public_key ∧ st'.peer_nodes = st.peer_nodes ∧
      (r = some block ∨ r = none) := by
  intro ps
  induction ps with
  | nil =>
    intro st r st' h
    rw [relay_block_loop] at h
    cases h
    exact ⟨rfl, rfl, rfl, rfl, Or.inl rfl⟩
  | cons node rest ih =>
    intro st r st' h
    rw [relay_block_loop] at h
    cases hn : net node with
    | ok => rw [hn] at h; exact ih st r st' h
    | rejected =>
      rw [hn] at h
      cases h
      exact ⟨rfl, rfl, rfl, rfl, Or.inr rfl⟩
    | conflict => rw [hn] at h; exact ih { st with resolve_conflicts := true } r st' h
    | unreachable => rw [hn] at h; exact ih st r st' h

/-- Inversion of a successful `mine_block` run: the public key was set, the
chain had a tail, the found proof validates the open transactions against the
tail's hash, the new block carries index `chain.length`, the tail's hash and
the open transactions plus the reward, and the new state's chain is the old
one with the block appended and an empty pool. -/
theorem mine_block_some (bc : Blockchain) (sigok : Transaction → Bool)
    (H : String → String) (fuel timestamp : Nat) (net : String → PeerResp)
    (b : Block) (bc' : Blockchain)
    (h : mine_block bc sigok H fuel timestamp net = (some b, bc')) :
    ∃ pk tail proof, bc.public_key = some pk ∧ bc.chain.getLast? = some tail ∧
      valid_proof H bc.open_transactions (hash_block H tail) proof = true ∧
      b = { index := bc.chain.length, previous_hash := hash_block H tail,
            transactions := bc.open_transactions ++
              [{ sender := "MINING", recipient := pk, signature := "",
                 amount := MINING_REWARD }],
            proof := proof, timestamp := timestamp } ∧
      bc'.chain = bc.chain ++ [b] ∧ bc'.open_transactions = [] := by
  cases hpk : bc.public_key with
  | none => rw [mine_block] at h; simp [hpk] at h
  | some pk =>
    cases hl : bc.chain.getLast? with
    | none => rw [mine_block] at h; simp [hpk, hl] at h
    | some tail =>
      cases hp : pow_loop H bc.open_transactions (hash_block H tail) fuel 0 with
      | none => rw [mine_block] at h; simp [hpk, hl, hp] at h
      | some proof =>
        by_cases hall : bc.open_transactions.all (fun tx => sigok tx) = true
        · rw [mine_block] at h
          simp only [hpk, hl, hp, hall, if_true] at h
          obtain ⟨hc, ho, _, _, hres⟩ := relay_block_loop_frame net _ _ _ _ _ h
          cases hres with
          | inl hsome =>
            simp only [Option.some.injEq] at hsome
            subst hsome
            exact ⟨pk, tail, proof, rfl, rfl,
              pow_loop_some H _ _ fuel 0 proof hp, rfl, hc, ho⟩
          | inr hnone => simp at hnone
        · simp only [Bool.not_eq_true] at hall
          rw [mine_block] at h
          simp [hpk, hl, hp, hall] at h

/-- Whatever `mine_block` returns, the chain either stays put or grows by one
block indexed with the old chain length, and the pool is emptied when the
chain grew. -/
theorem mine_block_chain_cases (bc : Blockchain) (sigok : Transaction → Bool)
    (H : String → String) (fuel timestamp : Nat) (net : String → PeerResp)
    (r : Option Block) (bc' : Blockchain)
    (h : mine_block bc sigok H fuel timestamp net = (r, bc')) :
    bc' = bc ∨
      ∃ blk, bc'.chain = bc.chain ++ [blk] ∧ blk.index = bc.chain.length ∧
        bc'.open_transactions = [] := by
  cases hpk : bc.public_key with
  | none => rw [mine_block] at h; simp [hpk] at h; exact Or.inl h.2.symm
  | some pk =>
    cases hl : bc.chain.getLast? with
    | none => rw [mine_block] at h; simp [hpk, hl] at h; exact Or.inl h.2.symm
    | some tail =>
      cases hp : pow_loop H bc.open_transactions (hash_block H tail) fuel 0 with
      | none => rw [mine_block] at h; simp [hpk, hl, hp] at h; exact Or.inl h.2.symm
      | some proof =>
        by_cases hall : bc.open_transactions.all (fun tx => sigok tx) = true
        · rw [mine_block] at h
          simp only [hpk, hl, hp, hall, if_true] at h
          obtain ⟨hc, ho, _, _, _⟩ := relay_block_loop_frame net _ _ _ _ _ h
          exact Or.inr ⟨_, hc, rfl, ho⟩
        · simp only [Bool.not_eq_true] at hall
          rw [mine_block] at h
          simp [hpk, hl, hp, hall] at h
          exact Or.inl h.2.symm

/-- `add_transaction` never touches the chain or the peer set, and the pool
either stays put or gains exactly the submitted transaction at the end. -/
theorem add_transaction_frame (bc : Blockchain) (recipient sender signature : String)
    (amount : Nat) (is_receiving : Bool) (net : String → PeerResp) :
    (add_transaction bc recipient sender signature amount is_receiving net).2.chain = bc.chain ∧
    (add_transaction bc recipient sender signature amount is_receiving net).2.peer_nodes
      = bc.peer_nodes ∧
    (add_transaction bc recipient sender signature amount is_receiving net).2.public_key
      = bc.public_key ∧
    ((add_transaction bc recipient sender signature amount is_receiving net).2 = bc ∨
      (add_transaction bc recipient sender signature amount is_receiving net).2 =
        { bc with open_transactions := bc.open_transactions ++
            [{ sender := sender, recipient := recipient, signature := signature,
               amount := amount }] }) := by
  by_cases hv : verify_transaction
      { sender := sender, recipient := recipient, signature := signature, amount := amount }
      (fun s => get_balance_core bc s) = true
  · cases is_receiving with
    | false =>
      by_cases hr : relay_tx_loop net bc.peer_nodes = true
      · simp [add_transaction, hv, hr]
      · simp only [Bool.not_eq_true] at hr
        simp [add_transaction, hv, hr]
    | true => simp [add_transaction, hv]
  · simp only [Bool.not_eq_true] at hv
    simp [add_transaction, hv]

/-- `add_block` rejects without mutation when the proof check fails or the
declared previous hash does not match the local tail's hash. -/
theorem add_block_reject (bc : Blockchain) (H : String → String) (incoming : Block)
    (tail : Block) (hl : bc.chain.getLast? = some tail)
    (h : valid_proof H incoming.transactions.dropLast incoming.previous_hash incoming.proof
          = false ∨
        hash_block H tail ≠ incoming.previous_hash) :
    add_block bc H incoming = (false, bc) := by
  rw [add_block]
  rcases h with h | h
  · simp [hl, h]
  · simp [hl, beq_eq_false_iff_ne.mpr h]

/-- `add_block` accepts when both checks pass: the (η-reconstructed) incoming
block is appended and the pool goes through the nested purge loops. -/
theorem add_block_success (bc : Blockchain) (H : String → String) (incoming : Block)
    (tail : Block) (hl : bc.chain.getLast? = some tail)
    (hp : valid_proof H incoming.transactions.dropLast incoming.previous_hash incoming.proof
          = true)
    (hh : hash_block H tail = incoming.previous_hash) :
    add_block bc H incoming = (true,
      { bc with
        chain := bc.chain ++ [incoming]
        open_transactions :=
          purge_pool incoming.transactions bc.open_transactions bc.open_transactions }) := by
  rw [add_block]
  simp [hl, hp, hh]

/-- Once the replace flag of the `resolve` scan is set, it stays set. -/
theorem resolve_loop_flag_mono (H : String → String) (fetch : String → Option (List Block)) :
    ∀ (ps : List String) (w w' : List Block) (rep' : Bool),
      resolve_loop H fetch ps w true = (w', rep') → rep' = true := by
  intro ps
  induction ps with
  | nil =>
    intro w w' rep' h
    rw [resolve_loop] at h
    cases h
    rfl
  | cons node rest ih =>
    intro w w' rep' h
    rw [resolve_loop] at h
    cases hf : fetch node with
    | none => simp only [hf] at h; exact ih w w' rep' h
    | some c =>
      simp only [hf] at h
      by_cases hc : (decide (c.length > w.length) && verify_chain H c) = true
      · rw [if_pos hc] at h; exact ih c w' rep' h
      · rw [if_neg hc] at h; exact ih w w' rep' h

/-- Case analysis on the `resolve` scan: either nothing was adopted and both
winner and flag are returned unchanged, or the flag is set and the returned
winner is a fetched chain, strictly longer than the initial winner, that
passes `verify_chain`. -/
theorem resolve_loop_cases (H : String → String) (fetch : String → Option (List Block)) :
    ∀ (ps : List String) (w : List Block) (rep : Bool) (w' : List Block) (rep' : Bool),
      resolve_loop H fetch ps w rep = (w', rep') →
      (w' = w ∧ rep' = rep) ∨
      (rep' = true ∧ w'.length > w.length ∧ verify_chain H w' = true ∧
        ∃ n ∈ ps, fetch n = some w') := by
  intro ps
  induction ps with
  | nil =>
    intro w rep w' rep' h
    rw [resolve_loop] at h
    cases h
    exact Or.inl ⟨rfl, rfl⟩
  | cons node rest ih =>
    intro w rep w' rep' h
    rw [resolve_loop] at h
    cases hf : fetch node with
    | none =>
      simp only [hf] at h
      rcases ih w rep w' rep' h with hsame | ⟨h1, h2, h3, n, hn, h4⟩
      · exact Or.inl hsame
      · exact Or.inr ⟨h1, h2, h3, n, List.mem_cons_of_mem node hn, h4⟩
    | some c =>
      simp only [hf] at h
      by_cases hc : (decide (c.length > w.length) && verify_chain H c) = true
      · rw [if_pos hc] at h
        simp only [Bool.and_eq_true, decide_eq_true_eq] at hc
        rcases ih c true w' rep' h with ⟨hw, hr⟩ | ⟨h1, h2, h3, n, hn, h4⟩
        · subst hw
          exact Or.inr ⟨hr, hc.1, hc.2, node, List.mem_cons_self node rest, hf⟩
        · exact Or.inr ⟨h1, Nat.lt_trans hc.1 h2, h3, n, List.mem_cons_of_mem node hn, h4⟩
      · rw [if_neg hc] at h
        rcases ih w rep w' rep' h with hsame | ⟨h1, h2, h3, n, hn, h4⟩
        · exact Or.inl hsame
        · exact Or.inr ⟨h1, h2, h3, n, List.mem_cons_of_mem node hn, h4⟩

/-- The scan's flag comes out set iff it went in set or some fetched chain is
strictly longer than the initial winner and passes `verify_chain`. -/
theorem resolve_loop_flag_iff (H : String → String) (fetch : String → Option (List Block)) :
    ∀ (ps : List String) (w : List Block) (rep : Bool) (w' : List Block) (rep' : Bool),
      resolve_loop H fetch ps w rep = (w', rep') →
      (rep' = true ↔ (rep = true ∨
        ∃ n ∈ ps, ∃ c, fetch n = some c ∧ c.length > w.length ∧ verify_chain H c = true)) := by
  intro ps
  induction ps with
  | nil =>
    intro w rep w' rep' h
    rw [resolve_loop] at h
    cases h
    simp
  | cons node rest ih =>
    intro w rep w' rep' h
    rw [resolve_loop] at h
    cases hf : fetch node with
    | none =>
      simp only [hf] at h
      rw [ih w rep w' rep' h]
      constructor
      · rintro (hr | ⟨n, hn, c, hc⟩)
        · exact Or.inl hr
        · exact Or.inr ⟨n, List.mem_cons_of_mem node hn, c, hc⟩
      · rintro (hr | ⟨n, hn, c, hfc, hlen, hv⟩)
        · exact Or.inl hr
        · rcases List.mem_cons.mp hn with rfl | hn'
          · rw [hf] at hfc; cases hfc
          · exact Or.inr ⟨n, hn', c, hfc, hlen, hv⟩
    | some c =>
      simp only [hf] at h
      by_cases hc : (decide (c.length > w.length) && verify_chain H c) = true
      · rw [if_pos hc] at h
        simp only [Bool.and_eq_true, decide_eq_true_eq] at hc
        constructor
        · intro _
          exact Or.inr ⟨node, List.mem_cons_self node rest, c, hf, hc.1, hc.2⟩
        · intro _
          exact resolve_loop_flag_mono H fetch rest c w' rep' h
      · rw [if_neg hc] at h
        rw [ih w rep w' rep' h]
        constructor
        · rintro (hr | ⟨n, hn, d, hd⟩)
          · exact Or.inl hr
          · exact Or.inr ⟨n, List.mem_cons_of_mem node hn, d, hd⟩
        · rintro (hr | ⟨n, hn, d, hfd, hlen, hv⟩)
          · exact Or.inl hr
          · rcases List.mem_cons.mp hn with rfl | hn'
            · rw [hf] at hfd
              cases hfd
              exact absurd (by simp [hlen, hv]) hc
            · exact Or.inr ⟨n, hn', d, hfd, hlen, hv⟩

/-! ### Claim theorems -/

/-- C9: if the persisted snapshot file is missing or unreadable, construction
does not fail and yields exactly the genesis chain
`[{index=0, previous_hash='', transactions=[], proof=100, timestamp=0}]`, an
empty open transaction pool and an empty peer set. -/
theorem C9_init_genesis_on_missing_snapshot (pk : Option String) (nid : String) :
    Blockchain.init pk nid none =
      { chain :=
          [{ index := 0, previous_hash := "", transactions := [], proof := 100, timestamp := 0 }],
        open_transactions := [], public_key := pk, peer_nodes := [], node_id := nid,
        resolve_conflicts := false } := rfl

/-- C7: `mine_block` returns `none` with the whole state unchanged whenever
the local public key is unset or some pending transaction fails the signature
check; no partially built block is appended in these cases. -/
theorem C7_mine_block_guard (bc : Blockchain) (sigok : Transaction → Bool)
    (H : String → String) (fuel timestamp : Nat) (net : String → PeerResp)
    (h : bc.public_key = none ∨ ∃ tx ∈ bc.open_transactions, sigok tx = false) :
    mine_block bc sigok H fuel timestamp net = (none, bc) := by
  rcases h with hpk | ⟨tx, htx, hsig⟩
  · rw [mine_block]
    simp [hpk]
  · have hall : bc.open_transactions.all (fun t => sigok t) = false := by
      rw [List.all_eq_false]
      exact ⟨tx, htx, by simp [hsig]⟩
    rw [mine_block]
    cases hpk : bc.public_key with
    | none => simp
    | some pk =>
      cases hl : bc.chain.getLast? with
      | none => simp [hl]
      | some tail =>
        cases hp : pow_loop H bc.open_transactions (hash_block H tail) fuel 0 with
        | none => simp [hl, hp]
        | some proof => simp [hl, hp, hall]

/-- Witness for C7: mining on a freshly constructed ledger with no identity
returns `none` and leaves the state alone. -/
theorem C7_witness :
    mine_block (Blockchain.init none "n7" none) (fun _ => true) Htest 1 0
      (fun _ => PeerResp.ok) = (none, Blockchain.init none "n7" none) :=
  C7_mine_block_guard (Blockchain.init none "n7" none) (fun _ => true) Htest 1 0
    (fun _ => PeerResp.ok) (Or.inl rfl)

/-- C4: `add_block` returns `false` and leaves the chain and the pool (indeed
the whole state) untouched whenever the proof check over all but the last
incoming transaction fails or the incoming block's declared `previous_hash`
differs from the hash of the local tail block. -/
theorem C4_add_block_rejects (bc : Blockchain) (H : String → String)
    (incoming tail : Block) (hl : bc.chain.getLast? = some tail)
    (h : valid_proof H incoming.transactions.dropLast incoming.previous_hash incoming.proof
          = false ∨
        hash_block H tail ≠ incoming.previous_hash) :
    add_block bc H incoming = (false, bc) :=
  add_block_reject bc H incoming tail hl h

/-- Concrete state and incoming block for the C4 witness. -/
def bcW4 : Blockchain := Blockchain.init (some "M4") "n4" none

/-- An incoming block whose declared previous hash is tampered. -/
def incW4 : Block :=
  { index := 1, previous_hash := "bad", transactions := [], proof := 0, timestamp := 1 }

/-- Witness for C4: a tampered `previous_hash` is rejected without mutation. -/
theorem C4_witness : add_block bcW4 Htest incW4 = (false, bcW4) :=
  C4_add_block_rejects bcW4 Htest incW4 genesis_block (by decide)
    (Or.inr (by decide))

/-- C10: when `resolve` returns `false`, the state differs from the pre-call
state only in the `resolve_conflicts` flag, which is cleared; chain, pool and
peer set are exactly as before. -/
theorem C10_resolve_false_frame (bc : Blockchain) (H : String → String)
    (fetch : String → Option (List Block))
    (h : (resolve bc H fetch).1 = false) :
    (resolve bc H fetch).2 = { bc with resolve_conflicts := false } := by
  rcases hw : resolve_loop H fetch bc.peer_nodes bc.chain false with ⟨w, rep⟩
  cases rep with
  | true =>
    rw [resolve] at h
    simp only [hw] at h
    simp at h
  | false =>
    rcases resolve_loop_cases H fetch bc.peer_nodes bc.chain false w false hw with
      ⟨hww, _⟩ | ⟨hrep, _⟩
    · rw [resolve]
      simp only [hw]
      subst hww
      simp
    · simp at hrep

/-- Concrete state for the C10 witness: a set flag, a pending transaction and
one unreachable peer. -/
def bcW10 : Blockchain :=
  { chain := [genesis_block],
    open_transactions := [{ sender := "C", recipient := "D", signature := "t", amount := 2 }],
    public_key := none, peer_nodes := ["p10"], node_id := "n10", resolve_conflicts := true }

/-- Witness for C10: with every peer unreachable, `resolve` reports no
replacement and only clears the flag. -/
theorem C10_witness :
    (resolve bcW10 Htest (fun _ => none)).2 = { bcW10 with resolve_conflicts := false } :=
  C10_resolve_false_frame bcW10 Htest (fun _ => none) (by decide)

/-- C2: `resolve` always clears the `resolve_conflicts` flag; it returns
`true` exactly when a replacement occurred, which happens iff some fetched
chain is strictly longer than the local chain and passes `verify_chain`; on
replacement the adopted chain is such a fetched chain and the pool is
cleared; without replacement chain and pool are untouched. -/
theorem C2_resolve_contract (bc : Blockchain) (H : String → String)
    (fetch : String → Option (List Block)) :
    (resolve bc H fetch).2.resolve_conflicts = false ∧
    (resolve bc H fetch).2.public_key = bc.public_key ∧
    (resolve bc H fetch).2.peer_nodes = bc.peer_nodes ∧
    ((resolve bc H fetch).1 = false →
      (resolve bc H fetch).2.chain = bc.chain ∧
      (resolve bc H fetch).2.open_transactions = bc.open_transactions) ∧
    ((resolve bc H fetch).1 = true →
      (resolve bc H fetch).2.open_transactions = [] ∧
      (resolve bc H fetch).2.chain.length > bc.chain.length ∧
      verify_chain H (resolve bc H fetch).2.chain = true ∧
      ∃ n ∈ bc.peer_nodes, fetch n = some (resolve bc H fetch).2.chain) ∧
    ((resolve bc H fetch).1 = true ↔
      ∃ n ∈ bc.peer_nodes, ∃ c, fetch n = some c ∧ c.length > bc.chain.length ∧
        verify_chain H c = true) := by
  rcases hw : resolve_loop H fetch bc.peer_nodes bc.chain false with ⟨w, rep⟩
  have hflag := resolve_loop_flag_iff H fetch bc.peer_nodes bc.chain false w rep hw
  simp only [Bool.false_eq_true, false_or] at hflag
  cases rep with
  | false =>
    have hres : resolve bc H fetch = (false, { bc with resolve_conflicts := false, chain := w }) := by
      rw [resolve]
      simp [hw]
    rcases resolve_loop_cases H fetch bc.peer_nodes bc.chain false w false hw with
      ⟨hww, _⟩ | ⟨hrep, _⟩
    · subst hww
      rw [hres]
      refine ⟨rfl, rfl, rfl, fun _ => ⟨rfl, rfl⟩, fun hft => by simp at hft, ?_⟩
      constructor
      · intro hft
        simp at hft
      · intro hx
        exact absurd (hflag.mpr hx) (by simp)
    · simp at hrep
  | true =>
    have hres : resolve bc H fetch =
        (true, { bc with resolve_conflicts := false, chain := w, open_transactions := [] }) := by
      rw [resolve]
      simp [hw]
    rcases resolve_loop_cases H fetch bc.peer_nodes bc.chain false w true hw with
      ⟨_, hrep⟩ | ⟨_, h2, h3, n, hn, h4⟩
    · simp at hrep
    · rw [hres]
      exact ⟨rfl, rfl, rfl, fun hft => by simp at hft,
        fun _ => ⟨rfl, h2, h3, n, hn, h4⟩,
        ⟨fun _ => ⟨n, hn, w, h4, h2, h3⟩, fun _ => rfl⟩⟩

/-- A fully valid two-block chain a peer can serve (its second block links to
the genesis hash, `"00"` under `Htest`). -/
def blockW2 : Block :=
  { index := 1, previous_hash := "00", transactions := [], proof := 0, timestamp := 3 }

/-- Concrete local state for the C2 witness: genesis-only chain, one pending
transaction, one peer. -/
def bcW2 : Blockchain :=
  { chain := [genesis_block],
    open_transactions := [{ sender := "A", recipient := "B", signature := "s", amount := 1 }],
    public_key := some "M2", peer_nodes := ["peer1"], node_id := "n2",
    resolve_conflicts := true }

/-- The peer serves a strictly longer valid chain. -/
def fetchW2 : String → Option (List Block) := fun _ => some [genesis_block, blockW2]

/-- Witness for C2: the longer valid peer chain is adopted, the pool is
cleared and the flag is cleared. -/
theorem C2_witness :
    (resolve bcW2 Htest fetchW2).1 = true ∧
    (resolve bcW2 Htest fetchW2).2.open_transactions = [] ∧
    (resolve bcW2 Htest fetchW2).2.resolve_conflicts = false := by
  have h := C2_resolve_contract bcW2 Htest fetchW2
  have h1 : (resolve bcW2 Htest fetchW2).1 = true :=
    h.2.2.2.2.2.mpr ⟨"peer1", by decide, [genesis_block, blockW2], rfl, by decide, by decide⟩
  exact ⟨h1, (h.2.2.2.2.1 h1).1, h.1⟩

/-- Concrete state for C3: one peer that will explicitly reject the relayed
transaction. -/
def bcC3 : Blockchain :=
  { chain := [genesis_block], open_transactions := [], public_key := some "M3",
    peer_nodes := ["p3"], node_id := "n3", resolve_conflicts := false }

/-- Counterexample to C3 as stated: submitting a valid transaction while the
peer explicitly rejects it makes `add_transaction` return `false`, yet the
state has changed — the transaction was already appended to the open pool
before the relay and is not rolled back. -/
theorem C3_cex :
    (add_transaction bcC3 "B" "A" "s" 0 false (fun _ => PeerResp.rejected)).1 = false ∧
    (add_transaction bcC3 "B" "A" "s" 0 false (fun _ => PeerResp.rejected)).2 ≠ bcC3 := by
  decide

/-- C3 (amended): the chain and the peer set are never mutated by
`add_transaction`; when verification fails the call returns `false` with the
whole state unchanged; and every `false` return leaves the state either
unchanged (verification failure) or changed exactly by the appended
transaction (peer rejection after local admission). -/
theorem C3_amended_no_rollback_on_peer_rejection (bc : Blockchain)
    (recipient sender signature : String) (amount : Nat) (is_receiving : Bool)
    (net : String → PeerResp) :
    (add_transaction bc recipient sender signature amount is_receiving net).2.chain
      = bc.chain ∧
    (add_transaction bc recipient sender signature amount is_receiving net).2.peer_nodes
      = bc.peer_nodes ∧
    (verify_transaction
        { sender := sender, recipient := recipient, signature := signature, amount := amount }
        (fun s => get_balance_core bc s) = false →
      add_transaction bc recipient sender signature amount is_receiving net = (false, bc)) ∧
    ((add_transaction bc recipient sender signature amount is_receiving net).1 = false →
      (add_transaction bc recipient sender signature amount is_receiving net).2 = bc ∨
      (add_transaction bc recipient sender signature amount is_receiving net).2 =
        { bc with open_transactions := bc.open_transactions ++
            [{ sender := sender, recipient := recipient, signature := signature,
               amount := amount }] }) := by
  obtain ⟨hchain, hpeers, _, hor⟩ :=
    add_transaction_frame bc recipient sender signature amount is_receiving net
  refine ⟨hchain, hpeers, ?_, fun _ => hor⟩
  intro hv
  rw [add_transaction]
  simp [hv]

/-- Witness for C3 (amended): an unfunded sender is rejected by verification
and the state is exactly the pre-call state. -/
theorem C3_witness :
    add_transaction bcC3 "B" "A" "sg" 5 false (fun _ => PeerResp.ok) = (false, bcC3) :=
  (C3_amended_no_rollback_on_peer_rejection bcC3 "B" "A" "sg" 5 false
    (fun _ => PeerResp.ok)).2.2.1 (by decide)

/-- The structural match of the purge loop is just equality of transactions
(the four compared fields are all the fields there are). -/
theorem tx_matches_eq (a b : Transaction) : tx_matches a b = true ↔ a = b := by
  cases a
  cases b
  simp [tx_matches, Transaction.mk.injEq]
  tauto

/-- `tx_matches` as a boolean is `==`. -/
theorem tx_matches_beq (a b : Transaction) : tx_matches a b = (a == b) := by
  by_cases h : a = b
  · subst h
    simp [(tx_matches_eq a a).mpr rfl]
  · have h1 : tx_matches a b = false := by
      cases hm : tx_matches a b
      · rfl
      · exact absurd ((tx_matches_eq a b).mp hm) h
    rw [h1, eq_comm]
    exact beq_eq_false_iff_ne.mpr h

/-- `remove_tx` is `List.erase`. -/
theorem remove_tx_erase (tx : Transaction) :
    ∀ (pool : List Transaction), remove_tx pool tx = pool.erase tx := by
  intro pool
  induction pool with
  | nil => rfl
  | cons t rest ih =>
    rw [remove_tx, List.erase_cons]
    by_cases h : t == tx
    · simp [h]
    · simp only [Bool.not_eq_true] at h
      simp [h, ih]

/-- Erasing one occurrence of `a` commutes away under the filter that drops
all occurrences of `a`. -/
theorem erase_filter_ne (a : Transaction) :
    ∀ (l : List Transaction),
      (l.erase a).filter (fun t => !(t == a)) = l.filter (fun t => !(t == a)) := by
  intro l
  induction l with
  | nil => rfl
  | cons b l ih =>
    rw [List.erase_cons]
    by_cases hb : b == a
    · simp [hb]
    · simp only [Bool.not_eq_true] at hb
      simp [List.filter_cons, hb, ih]

/-- One pass of the inner purge loop: if the snapshot holds at least as many
copies of the incoming transaction as the live pool does, the pass removes
every occurrence of it from the pool. -/
theorem purge_inner_spec (itx : Transaction) :
    ∀ (stored pl : List Transaction), pl.count itx ≤ stored.count itx →
      purge_inner stored itx pl = pl.filter (fun t => !(t == itx)) := by
  intro stored
  induction stored with
  | nil =>
    intro pl h
    simp only [List.count_nil, Nat.le_zero] at h
    have hmem : itx ∉ pl := List.count_eq_zero.mp h
    rw [purge_inner, List.foldl_nil, eq_comm, List.filter_eq_self]
    intro a ha
    simp only [Bool.not_eq_eq_eq_not, Bool.not_true]
    exact beq_eq_false_iff_ne.mpr (fun he => hmem (he ▸ ha))
  | cons s rest ih =>
    intro pl h
    have hstep : purge_inner (s :: rest) itx pl =
        purge_inner rest itx (if tx_matches s itx then remove_tx pl s else pl) := rfl
    rw [hstep]
    by_cases hm : tx_matches s itx = true
    · have hseq : s = itx := (tx_matches_eq s itx).mp hm
      subst hseq
      rw [if_pos hm, remove_tx_erase]
      have hcount : (pl.erase s).count s ≤ rest.count s := by
        rw [List.count_erase_self]
        rw [List.count_cons_self] at h
        omega
      rw [ih (pl.erase s) hcount]
      exact erase_filter_ne s pl
    · simp only [Bool.not_eq_true] at hm
      rw [if_neg (by simp [hm])]
      have hne : s ≠ itx := fun he => by simp [(tx_matches_eq s itx).mpr he] at hm
      rw [List.count_cons_of_ne (Ne.symm hne)] at h
      exact ih pl h

/-- The nested purge loops drop exactly the pool entries that structurally
match some transaction of the incoming block, preserving the order of the
rest, provided the snapshot holds at least as many copies of each value as
the live pool (in `add_block` the snapshot IS the pool). -/
theorem purge_pool_spec :
    ∀ (incoming : List Transaction) (stored pl : List Transaction),
      (∀ v, pl.count v ≤ stored.count v) →
      purge_pool incoming stored pl =
        pl.filter (fun t => !(incoming.any (fun itx => tx_matches t itx))) := by
  intro incoming
  induction incoming with
  | nil =>
    intro stored pl _
    simp [purge_pool]
  | cons itx rest ih =>
    intro stored pl h
    have hstep : purge_pool (itx :: rest) stored pl =
        purge_pool rest stored (purge_inner stored itx pl) := rfl
    rw [hstep, purge_inner_spec itx stored pl (h itx)]
    have hcounts : ∀ v, (pl.filter (fun t => !(t == itx))).count v ≤ stored.count v :=
      fun v => Nat.le_trans (List.Sublist.count_le (List.filter_sublist pl) v) (h v)
    rw [ih stored _ hcounts, List.filter_filter]
    apply List.filter_congr
    intro t _
    simp [tx_matches_beq, Bool.and_comm]

/-- C5: when both checks pass, `add_block` appends the reconstructed incoming
block, removes from the open pool exactly the pending transactions that
structurally match some transaction of the incoming block (keeping the others
in place, in order), and returns `true`. -/
theorem C5_add_block_accepts (bc : Blockchain) (H : String → String)
    (incoming tail : Block) (hl : bc.chain.getLast? = some tail)
    (hp : valid_proof H incoming.transactions.dropLast incoming.previous_hash incoming.proof
          = true)
    (hh : hash_block H tail = incoming.previous_hash) :
    add_block bc H incoming = (true,
      { bc with
        chain := bc.chain ++ [incoming]
        open_transactions := bc.open_transactions.filter
          (fun t => !(incoming.transactions.any (fun itx => tx_matches t itx))) }) := by
  rw [add_block_success bc H incoming tail hl hp hh,
    purge_pool_spec incoming.transactions bc.open_transactions bc.open_transactions
      (fun v => Nat.le_refl _)]

/-- A pending transaction that the incoming block of the C5 witness includes. -/
def txC5a : Transaction := { sender := "A", recipient := "B", signature := "sa", amount := 3 }

/-- A pending transaction the incoming block does not include. -/
def txC5b : Transaction := { sender := "C", recipient := "D", signature := "sc", amount := 4 }

/-- Concrete state for the C5 witness: genesis chain and two pending
transactions. -/
def bcC5 : Blockchain :=
  { chain := [genesis_block], open_transactions := [txC5a, txC5b],
    public_key := some "M5", peer_nodes := [], node_id := "n5", resolve_conflicts := false }

/-- Incoming block for the C5 witness: links to the genesis hash (`"00"`
under `Htest`) and carries one of the pending transactions plus a reward. -/
def incC5 : Block :=
  { index := 1, previous_hash := "00",
    transactions := [txC5a,
      { sender := "MINING", recipient := "M5", signature := "", amount := 10 }],
    proof := 0, timestamp := 4 }

/-- Witness for C5: the block is appended and exactly the matching pending
transaction leaves the pool. -/
theorem C5_witness :
    add_block bcC5 Htest incC5 = (true,
      { bcC5 with chain := [genesis_block, incC5], open_transactions := [txC5b] }) := by
  rw [C5_add_block_accepts bcC5 Htest incC5 genesis_block (by decide) (by decide) (by decide)]
  decide

/-- The Python `reduce` of `get_balance` is a plain sum of sums: the
`if len(amount)` guard is redundant since an empty list contributes 0. -/
theorem foldl_if_sum :
    ∀ (l : List (List Nat)) (init : Nat),
      l.foldl (fun (tx_sum : Nat) amount =>
        if amount.length ≠ 0 then tx_sum + amount.sum else tx_sum + 0) init
        = init + (l.map List.sum).sum := by
  intro l
  induction l with
  | nil => intro init; simp
  | cons a rest ih =>
    intro init
    rw [List.foldl_cons, ih]
    by_cases ha : a.length = 0
    · have haa : a = [] := List.length_eq_zero.mp ha
      subst haa
      simp
    · simp only [ha, ne_eq, not_false_iff, if_true, List.map_cons, List.sum_cons]
      omega

/-- Summing the per-block filtered amounts equals summing the filtered
amounts of the flattened chain. -/
theorem chain_filter_sum (p : Transaction → Bool) :
    ∀ (chain : List Block),
      ((chain.map (fun block =>
        ((block.transactions.filter p).map (fun tx => tx.amount)))).map List.sum).sum
      = (((chain.map Block.transactions).join.filter p).map (fun tx => tx.amount)).sum := by
  intro chain
  induction chain with
  | nil => rfl
  | cons b rest ih =>
    simp only [List.map_cons, List.sum_cons, List.join_cons, List.filter_append,
      List.map_append, List.sum_append, ih]

/-- The balance exactly as the claim words it: everything `participant`
received across the mined blocks of the chain, minus everything it sent
across the mined blocks and the currently open transactions (this definition
follows the spec's words, to be compared against `get_balance_core`, which is
translated from the source). -/
def spec_balance (bc : Blockchain) (participant : String) : Int :=
  ((((bc.chain.map Block.transactions).join.filter
      (fun tx => tx.recipient == participant)).map (fun tx => tx.amount)).sum : Int) -
  ((((bc.chain.map Block.transactions).join ++ bc.open_transactions).filter
      (fun tx => tx.sender == participant)).map (fun tx => tx.amount)).sum

/-- C8: `get_balance` computes received-over-chain minus sent-over-chain-and-
open-pool, for every participant. -/
theorem C8_get_balance_spec (bc : Blockchain) (participant : String) :
    get_balance bc (some participant) = some (spec_balance bc participant) := by
  show some (get_balance_core bc participant) = some (spec_balance bc participant)
  congr 1
  simp only [get_balance_core, spec_balance]
  rw [foldl_if_sum, foldl_if_sum]
  simp only [Nat.zero_add, List.map_append, List.sum_append, List.map_cons, List.map_nil,
    List.sum_cons, List.sum_nil, List.filter_append, chain_filter_sum]
  push_cast
  simp only [List.map_map, Function.comp_def]
  ring

/-- Inversion of one verified link. -/
theorem verify_chain_from_cons (H : String → String) (prev x : Block)
    (rest : List Block) (hv : verify_chain_from H prev (x :: rest) = true) :
    x.previous_hash = hash_block H prev ∧
    valid_proof H x.transactions.dropLast x.previous_hash x.proof = true ∧
    verify_chain_from H x rest = true := by
  rw [verify_chain_from] at hv
  by_cases h1 : (x.previous_hash != hash_block H prev) = true
  · rw [if_pos h1] at hv
    exact absurd hv (by simp)
  · rw [if_neg h1] at hv
    by_cases h2 : (!valid_proof H x.transactions.dropLast x.previous_hash x.proof) = true
    · rw [if_pos h2] at hv
      exact absurd hv (by simp)
    · rw [if_neg h2] at hv
      refine ⟨?_, ?_, hv⟩
      · simp only [Bool.not_eq_true, bne_eq_false_iff_eq, beq_iff_eq] at h1
        exact h1
      · simp at h2
        exact h2

/-- Extending a verified suffix with a block that links to the last element
and carries a valid proof keeps it verified. -/
theorem verify_chain_from_append (H : String → String) (b : Block) :
    ∀ (rest : List Block) (prev tail : Block),
      verify_chain_from H prev rest = true →
      (prev :: rest).getLast? = some tail →
      b.previous_hash = hash_block H tail →
      valid_proof H b.transactions.dropLast b.previous_hash b.proof = true →
      verify_chain_from H prev (rest ++ [b]) = true := by
  intro rest
  induction rest with
  | nil =>
    intro prev tail _ hl hprev hproof
    have htail : tail = prev := by
      have : ([prev] : List Block).getLast? = some prev := rfl
      rw [this] at hl
      exact (Option.some_inj.mp hl).symm
    subst htail
    rw [List.nil_append, verify_chain_from, ← hprev]
    simp [hproof, verify_chain_from]
  | cons x rest ih =>
    intro prev tail hv hl hprev hproof
    obtain ⟨hlink, hvp, hrec⟩ := verify_chain_from_cons H prev x rest hv
    rw [List.cons_append, verify_chain_from]
    have h1 : (x.previous_hash != hash_block H prev) = false := by
      simp [hlink]
    have hl2 : (x :: rest).getLast? = some tail := by
      rw [List.getLast?_cons_cons] at hl
      exact hl
    simp only [h1, Bool.false_eq_true, if_false, hvp, Bool.not_true, if_true]
    exact ih x tail hrec hl2 hprev hproof

/-- Appending a correctly linked, correctly proved block preserves
`verify_chain`. -/
theorem verify_chain_append (H : String → String) (c : List Block) (b tail : Block)
    (hc : verify_chain H c = true) (hl : c.getLast? = some tail)
    (hprev : b.previous_hash = hash_block H tail)
    (hproof : valid_proof H b.transactions.dropLast b.previous_hash b.proof = true) :
    verify_chain H (c ++ [b]) = true := by
  cases c with
  | nil => simp at hl
  | cons hd rest =>
    rw [verify_chain] at hc
    rw [List.cons_append, verify_chain]
    exact verify_chain_from_append H b rest hd tail hc hl hprev hproof

/-- Pointwise reading of a verified suffix: every adjacent pair is hash-linked
and proof-valid. -/
theorem verify_chain_from_link (H : String → String) :
    ∀ (rest : List Block) (prev : Block), verify_chain_from H prev rest = true →
      ∀ (i : Nat) (b1 b2 : Block),
        (prev :: rest)[i]? = some b1 → (prev :: rest)[i + 1]? = some b2 →
        b2.previous_hash = hash_block H b1 ∧
        valid_proof H b2.transactions.dropLast b2.previous_hash b2.proof = true := by
  intro rest
  induction rest with
  | nil =>
    intro prev _ i b1 b2 _ h2
    rw [List.getElem?_cons_succ] at h2
    simp at h2
  | cons x rest ih =>
    intro prev hv i b1 b2 h1 h2
    obtain ⟨hlink, hvp, hrec⟩ := verify_chain_from_cons H prev x rest hv
    cases i with
    | zero =>
      rw [List.getElem?_cons_zero] at h1
      rw [List.getElem?_cons_succ, List.getElem?_cons_zero] at h2
      cases h1
      cases h2
      exact ⟨hlink, hvp⟩
    | succ j =>
      rw [List.getElem?_cons_succ] at h1
      rw [List.getElem?_cons_succ] at h2
      exact ih x hrec j b1 b2 h1 h2

/-- Pointwise reading of `verify_chain`. -/
theorem verify_chain_link (H : String → String) (ch : List Block)
    (hc : verify_chain H ch = true) :
    ∀ (i : Nat) (b1 b2 : Block), ch[i]? = some b1 → ch[i + 1]? = some b2 →
      b2.previous_hash = hash_block H b1 ∧
      valid_proof H b2.transactions.dropLast b2.previous_hash b2.proof = true := by
  cases ch with
  | nil => intro i b1 b2 h1 _; simp at h1
  | cons hd rest =>
    rw [verify_chain] at hc
    exact verify_chain_from_link H rest hd hc

/-- The chains obtainable from the genesis chain solely by successful
`mine_block` calls (pool, identity and peers may vary arbitrarily between the
mining steps; a successful call is one returning `some` block). -/
inductive MinedChain (H : String → String) : List Block → Prop where
  | genesis : MinedChain H [genesis_block]
  | mine (bc : Blockchain) (sigok : Transaction → Bool) (fuel timestamp : Nat)
      (net : String → PeerResp) (b : Block) (bc' : Blockchain) :
      MinedChain H bc.chain →
      mine_block bc sigok H fuel timestamp net = (some b, bc') →
      MinedChain H bc'.chain

/-- C1: every chain built from the genesis block solely by successful
`mine_block` calls passes `verify_chain`, and pointwise every block after the
first links to the hash of its predecessor and carries a proof valid over all
its transactions but the last (the mining reward, appended after proof
discovery). -/
theorem C1_mined_chains_pass_verification (H : String → String) (ch : List Block)
    (h : MinedChain H ch) :
    verify_chain H ch = true ∧
    ∀ (i : Nat) (b1 b2 : Block), ch[i]? = some b1 → ch[i + 1]? = some b2 →
      b2.previous_hash = hash_block H b1 ∧
      valid_proof H b2.transactions.dropLast b2.previous_hash b2.proof = true := by
  have hv : verify_chain H ch = true := by
    induction h with
    | genesis => rfl
    | mine bc sigok fuel timestamp net b bc' hmc heq ih =>
      obtain ⟨pk, tail, proof, hpk, hl, hvp, hb, hchain, _⟩ :=
        mine_block_some bc sigok H fuel timestamp net b bc' heq
      rw [hchain]
      refine verify_chain_append H bc.chain b tail ih hl ?_ ?_
      · rw [hb]
      · rw [hb]
        simpa [List.dropLast_concat] using hvp
  exact ⟨hv, verify_chain_link H ch hv⟩

/-- The block mined in the C1 witness run. -/
def blockW1 : Block :=
  { index := 1, previous_hash := "00",
    transactions := [{ sender := "MINING", recipient := "M1", signature := "", amount := 10 }],
    proof := 0, timestamp := 7 }

/-- The pre-mining state of the C1 witness run. -/
def bcW1 : Blockchain := Blockchain.init (some "M1") "n1" none

/-- The post-mining state of the C1 witness run. -/
def bcW1post : Blockchain :=
  { chain := [genesis_block, blockW1], open_transactions := [], public_key := some "M1",
    peer_nodes := [], node_id := "n1", resolve_conflicts := false }

/-- Witness for C1: one concrete successful `mine_block` run from the genesis
chain yields a chain that `verify_chain` accepts. -/
theorem C1_witness : verify_chain Htest bcW1post.chain = true :=
  (C1_mined_chains_pass_verification Htest bcW1post.chain
    (MinedChain.mine bcW1 (fun _ => true) 1 7 (fun _ => PeerResp.ok) blockW1 bcW1post
      MinedChain.genesis (by decide))).1

/-- Every block's `index` field equals its position in the chain. -/
def PositionIndexed (ch : List Block) : Prop :=
  ∀ (i : Nat) (b : Block), ch[i]? = some b → b.index = i

/-- The ledger states reachable from construction (with no usable snapshot)
by arbitrary sequences of the public mutating operations — exactly the
quantification of the claim. -/
inductive Reachable (H : String → String) : Blockchain → Prop where
  | init (pk : Option String) (nid : String) : Reachable H (Blockchain.init pk nid none)
  | add_tx (bc : Blockchain) (recipient sender signature : String) (amount : Nat)
      (is_receiving : Bool) (net : String → PeerResp) : Reachable H bc →
      Reachable H (add_transaction bc recipient sender signature amount is_receiving net).2
  | mine (bc : Blockchain) (sigok : Transaction → Bool) (fuel timestamp : Nat)
      (net : String → PeerResp) : Reachable H bc →
      Reachable H (mine_block bc sigok H fuel timestamp net).2
  | add_blk (bc : Blockchain) (incoming : Block) : Reachable H bc →
      Reachable H (add_block bc H incoming).2
  | resolve_step (bc : Blockchain) (fetch : String → Option (List Block)) :
      Reachable H bc → Reachable H (resolve bc H fetch).2
  | add_peer (bc : Blockchain) (node : String) : Reachable H bc →
      Reachable H (add_peer_node bc node)
  | remove_peer (bc : Blockchain) (node : String) : Reachable H bc →
      Reachable H (remove_peer_node bc node)

/-- Base state for the C6 counterexample. -/
def bcC6base : Blockchain := Blockchain.init (some "M6") "n6" none

/-- An incoming block with a bogus `index` field but a correct previous hash
(`"00"` under `Htest`) and a valid proof. -/
def incC6 : Block :=
  { index := 5, previous_hash := "00", transactions := [], proof := 3, timestamp := 9 }

/-- Counterexample to C6 as stated: `add_block` never validates the declared
`index`, so a reachable state (one accepted remote block with `index = 5`)
holds a block whose index differs from its position. -/
theorem C6_cex :
    Reachable Htest (add_block bcC6base Htest incC6).2 ∧
    ¬ PositionIndexed (add_block bcC6base Htest incC6).2.chain := by
  constructor
  · exact Reachable.add_blk bcC6base incC6 (Reachable.init (some "M6") "n6")
  · intro hpi
    have h1 : ((add_block bcC6base Htest incC6).2.chain)[1]? = some incC6 := by decide
    exact absurd (hpi 1 incC6 h1) (by decide)

/-- The ledger states reachable when remote inputs are well indexed: every
accepted `add_block` block declares `index` equal to the local chain length,
and every chain fetched during `resolve` is position-indexed.  (The code
checks neither; this inductive carries the side conditions the amended claim
needs.) -/
inductive ReachableIndexed (H : String → String) : Blockchain → Prop where
  | init (pk : Option String) (nid : String) :
      ReachableIndexed H (Blockchain.init pk nid none)
  | add_tx (bc : Blockchain) (recipient sender signature : String) (amount : Nat)
      (is_receiving : Bool) (net : String → PeerResp) : ReachableIndexed H bc →
      ReachableIndexed H (add_transaction bc recipient sender signature amount is_receiving net).2
  | mine (bc : Blockchain) (sigok : Transaction → Bool) (fuel timestamp : Nat)
      (net : String → PeerResp) : ReachableIndexed H bc →
      ReachableIndexed H (mine_block bc sigok H fuel timestamp net).2
  | add_blk (bc : Blockchain) (incoming : Block) : ReachableIndexed H bc →
      ((add_block bc H incoming).1 = true → incoming.index = bc.chain.length) →
      ReachableIndexed H (add_block bc H incoming).2
  | resolve_step (bc : Blockchain) (fetch : String → Option (List Block)) :
      ReachableIndexed H bc →
      (∀ n nc, n ∈ bc.peer_nodes → fetch n = some nc → PositionIndexed nc) →
      ReachableIndexed H (resolve bc H fetch).2
  | add_peer (bc : Blockchain) (node : String) : ReachableIndexed H bc →
      ReachableIndexed H (add_peer_node bc node)
  | remove_peer (bc : Blockchain) (node : String) : ReachableIndexed H bc →
      ReachableIndexed H (remove_peer_node bc node)

/-- Appending a block indexed by the old length preserves position
indexing. -/
theorem positionIndexed_append (ch : List Block) (b : Block)
    (hc : PositionIndexed ch) (hb : b.index = ch.length) :
    PositionIndexed (ch ++ [b]) := by
  intro i x hx
  rw [List.getElem?_append] at hx
  by_cases hi : i < ch.length
  · rw [if_pos hi] at hx
    exact hc i x hx
  · rw [if_neg hi] at hx
    cases hj : i - ch.length with
    | zero =>
      rw [hj] at hx
      simp only [List.getElem?_cons_zero, Option.some.injEq] at hx
      subst hx
      omega
    | succ k =>
      rw [hj] at hx
      simp at hx

/-- Disjunctive description of `add_block`: rejection leaves the state alone,
acceptance appends the incoming block. -/
theorem add_block_cases (bc : Blockchain) (H : String → String) (incoming : Block)
    (r : Bool) (bc2 : Blockchain) (h : add_block bc H incoming = (r, bc2)) :
    (r = false ∧ bc2 = bc) ∨
    (r = true ∧ bc2.chain = bc.chain ++ [incoming]) := by
  cases hl : bc.chain.getLast? with
  | none =>
    rw [add_block] at h
    simp only [hl] at h
    cases h
    exact Or.inl ⟨rfl, rfl⟩
  | some tail =>
    rw [add_block] at h
    simp only [hl] at h
    by_cases hcond : (!valid_proof H incoming.transactions.dropLast incoming.previous_hash
        incoming.proof || !(hash_block H tail == incoming.previous_hash)) = true
    · rw [if_pos hcond] at h
      cases h
      exact Or.inl ⟨rfl, rfl⟩
    · rw [if_neg hcond] at h
      cases h
      exact Or.inr ⟨rfl, rfl⟩

/-- C6 (amended): every block's `index` equals its position in the chain, in
every state reachable by operation sequences whose accepted remote blocks
declare the correct index and whose fetched chains are position-indexed;
`add_block` itself never checks the declared index. -/
theorem C6_position_indexed_amended (H : String → String) (bc : Blockchain)
    (h : ReachableIndexed H bc) : PositionIndexed bc.chain := by
  induction h with
  | init pk nid =>
    show PositionIndexed [genesis_block]
    intro i b hib
    cases i with
    | zero =>
      simp only [List.getElem?_cons_zero, Option.some.injEq] at hib
      rw [← hib]
      rfl
    | succ j => simp at hib
  | add_tx bc recipient sender signature amount is_receiving net hbc ih =>
    have hc :=
      (add_transaction_frame bc recipient sender signature amount is_receiving net).1
    rw [hc]
    exact ih
  | mine bc sigok fuel timestamp net hbc ih =>
    rcases mine_block_chain_cases bc sigok H fuel timestamp net
        (mine_block bc sigok H fuel timestamp net).1
        (mine_block bc sigok H fuel timestamp net).2 rfl with heq | ⟨blk, hchain, hidx, _⟩
    · rw [heq]
      exact ih
    · rw [hchain]
      exact positionIndexed_append bc.chain blk ih hidx
  | add_blk bc incoming hbc hidx ih =>
    rcases add_block_cases bc H incoming (add_block bc H incoming).1
        (add_block bc H incoming).2 rfl with ⟨_, hbc2⟩ | ⟨hr, hchain⟩
    · rw [hbc2]
      exact ih
    · rw [hchain]
      exact positionIndexed_append bc.chain incoming ih (hidx hr)
  | resolve_step bc fetch hbc hfetch ih =>
    rcases hw : resolve_loop H fetch bc.peer_nodes bc.chain false with ⟨w, rep⟩
    have hchain : (resolve bc H fetch).2.chain = w := by
      rw [resolve]
      simp only [hw]
      cases rep with
      | false => simp
      | true => simp
    rw [hchain]
    rcases resolve_loop_cases H fetch bc.peer_nodes bc.chain false w rep hw with
      ⟨hww, _⟩ | ⟨_, _, _, n, hn, h4⟩
    · rw [hww]
      exact ih
    · exact hfetch n w hn h4
  | add_peer bc node hbc ih =>
    have hc : (add_peer_node bc node).chain = bc.chain := by
      rw [add_peer_node]
      split
      · rfl
      · rfl
    rw [hc]
    exact ih
  | remove_peer bc node hbc ih => exact ih

/-- Witness for C6 (amended): the freshly constructed ledger is position
indexed. -/
theorem C6_witness : PositionIndexed (Blockchain.init (some "W6") "n6w" none).chain :=
  C6_position_indexed_amended Htest (Blockchain.init (some "W6") "n6w" none)
    (ReachableIndexed.init (some "W6") "n6w")

end RNR
